import Mathlib

/- Shallow embedding of the request/response engine of src/browser.py:
   the URL parser (URL.parse), the HTTP exchange state machine of
   request() (status line, header loop, gzip dispatch, socket close),
   and the markup stripper lex().

   Wire bytes are modelled as Lean characters (the code decodes every
   byte sequence as UTF-8; the model treats that decoding as the
   identity, which is exact on ASCII wire data).  Python string helpers
   (split, strip, lower, int) are modelled on the ASCII fragment of
   their behaviour, which is the fragment the theorems exercise.
   The gzip library call is modelled as an explicit decompressor
   parameter of the exchange, since gzip.decompress is an external
   library routine and not part of the repository. -/

/-- Constant NEWLINE of browser.py, line 17. -/
def NEWLINE : List Char := "\r\n".data

/-- Constant HEADER_CONTENT_ENCODING of browser.py, line 22. -/
def HEADER_CONTENT_ENCODING : List Char := "content-encoding".data

/-- Constant HEADER_ACCEPT_ENCODING of browser.py, line 23 (note: lower case). -/
def HEADER_ACCEPT_ENCODING : List Char := "accept-encoding".data

/-- Constant ENCODING_GZIP of browser.py, line 20. -/
def ENCODING_GZIP : List Char := "gzip".data

/-- Does the second list start with the first one?  Used to locate
substring occurrences, as Python's str.split does. -/
def beginsWith : List Char → List Char → Bool
  | [], _ => true
  | _ :: _, [] => false
  | p :: ps, c :: cs => p = c && beginsWith ps cs

/-- Python s.split(sep, 1) for a nonempty separator: split at the first
occurrence of sep, returning the parts before and after it; none when
sep does not occur (in the source every such miss is a ValueError,
because the two-element unpacking of the result fails). -/
def splitSub : List Char → List Char → Option (List Char × List Char)
  | [], _ => none
  | c :: cs, sep =>
    if beginsWith sep (c :: cs) then some ([], (c :: cs).drop sep.length)
    else
      match splitSub cs sep with
      | none => none
      | some ab => some (c :: ab.1, ab.2)

/-- Python s.split(sep, maxsplit) for a single-character separator:
split at most the given number of times, left to right. -/
def splitMax : List Char → Char → Nat → List (List Char)
  | s, _, 0 => [s]
  | s, sep, n + 1 =>
    match splitSub s [sep] with
    | none => [s]
    | some ab => ab.1 :: splitMax ab.2 sep n

/-- The ASCII whitespace characters recognised by Python str.strip(). -/
def pyIsSpace (c : Char) : Bool :=
  c = ' ' || c = '\t' || c = '\n' || c = '\r' || c = Char.ofNat 11 || c = Char.ofNat 12

/-- Python s.strip(): remove leading and trailing whitespace. -/
def pyStrip (s : List Char) : List Char :=
  ((s.dropWhile pyIsSpace).reverse.dropWhile pyIsSpace).reverse

/-- Python str.lower() on one character (ASCII fragment). -/
def pyLowerChar (c : Char) : Char :=
  if 65 ≤ c.toNat ∧ c.toNat ≤ 90 then Char.ofNat (c.toNat + 32) else c

/-- Python s.lower() (ASCII fragment). -/
def pyLowerStr (s : List Char) : List Char := s.map pyLowerChar

/-- Tail of a Python decimal digit sequence: digits with single
underscores allowed between digits (Python int() accepts them). -/
def pyDigitRest : List Char → Bool
  | [] => true
  | ['_'] => false
  | '_' :: c :: cs => c.isDigit && pyDigitRest (c :: cs)
  | c :: cs => c.isDigit && pyDigitRest cs

/-- A Python decimal digitpart: nonempty, starts with a digit,
underscores only between digits. -/
def pyDigitPart : List Char → Bool
  | [] => false
  | c :: cs => c.isDigit && pyDigitRest cs

/-- Decimal value of a digitpart, ignoring underscores. -/
def digitsVal (s : List Char) : Nat :=
  s.foldl (fun a c => if c = '_' then a else a * 10 + (c.toNat - 48)) 0

/-- Python int(s) for base 10 (ASCII fragment): strip surrounding
whitespace, allow one optional sign, then a digitpart.  Note that
signed values are accepted, so int can produce negative numbers. -/
def pyIntParse (s : List Char) : Option Int :=
  let t := pyStrip s
  match t with
  | '+' :: r => if pyDigitPart r then some (Int.ofNat (digitsVal r)) else none
  | '-' :: r => if pyDigitPart r then some (-(Int.ofNat (digitsVal r))) else none
  | _ => if pyDigitPart t then some (Int.ofNat (digitsVal t)) else none

/-- A Python dict from header names to values, as an insertion-ordered
association list (the order is dict insertion order). -/
abbrev PyDict := List (List Char × List Char)

/-- Python d[k] = v: overwrite the existing entry in place, else append. -/
def dictInsert : PyDict → List Char → List Char → PyDict
  | [], k, v => [(k, v)]
  | (k', v') :: d, k, v =>
    if k' = k then (k, v) :: d else (k', v') :: dictInsert d k v

/-- Python d.get(k): the value stored at k, if any. -/
def dictGet : PyDict → List Char → Option (List Char)
  | [], _ => none
  | (k', v') :: d, k => if k' = k then some v' else dictGet d k

/-- The URL dataclass of browser.py, lines 63-69 (a Locator).  The port
is an integer; Python's int() accepts signed values, so it can be
negative. -/
structure URLRec where
  raw : List Char
  host : List Char
  path : List Char
  scheme : List Char
  port : Int
  deriving DecidableEq, Repr

/-- URL.parse of browser.py, lines 71-88.  none models the ValueError
of a failed unpacking split or int() conversion and the AssertionError
of an unknown scheme (the spec's MalformedURL). -/
def parse (url : List Char) : Option URLRec :=
  match splitSub url ("://".data) with
  | none => none
  | some su =>
    if su.1 = "http".data ∨ su.1 = "https".data then
      let dport : Int := if su.1 = "http".data then 80 else 443
      let rest := if '/' ∈ su.2 then su.2 else su.2 ++ ['/']
      match splitSub rest ['/'] with
      | none => none
      | some hp =>
        if ':' ∈ hp.1 then
          match splitSub hp.1 [':'] with
          | none => none
          | some hq =>
            match pyIntParse hq.2 with
            | none => none
            | some p => some ⟨url, hq.1, '/' :: hp.2, su.1, p⟩
        else some ⟨url, hp.1, '/' :: hp.2, su.1, dport⟩
    else none

/-- The explicit-port fragment of a well-formed URL: empty, or a colon
followed by the port digits. -/
def portPart : Option (List Char) → List Char
  | none => []
  | some p => ':' :: p

/-- A well-formed input of the form scheme://host[:port]/path. -/
def mkWF (sc h pt : List Char) (op : Option (List Char)) : List Char :=
  sc ++ "://".data ++ (h ++ portPart op ++ ('/' :: pt))

/-- The request bytes sent by request() in browser.py, line 100-104:
the f-string interpolating path, host and the header constants. -/
def requestString (path host : List Char) : List Char :=
  "GET ".data ++ path ++ " HTTP/1.0".data ++ NEWLINE ++ "Host: ".data ++ host
    ++ NEWLINE ++ HEADER_ACCEPT_ENCODING ++ ": ".data ++ ENCODING_GZIP
    ++ NEWLINE ++ NEWLINE

/-- BufferedReader.readline on the byte stream: everything up to and
including the first linefeed (or the whole rest at end of stream),
paired with the remainder. -/
def readLine : List Char → List Char × List Char
  | [] => ([], [])
  | c :: cs =>
    if c = '\n' then ([c], cs)
    else (c :: (readLine cs).1, (readLine cs).2)

/-- Failure modes of the exchange, named after what Python raises:
valueError for a failed unpacking split, httpError (code, reason) for
the assert on a non-200 status, badGzip for gzip.decompress failure. -/
inductive Err where
  | valueError : Err
  | httpError : List Char → List Char → Err
  | badGzip : Err
  deriving DecidableEq, Repr

/-- The header loop of request(), browser.py lines 110-116, with fuel
(one unit per line read; the wrapper readHeaders supplies enough fuel
for any stream, since every iteration consumes at least one byte).
Reads lines until a bare CRLF, splits each at the first colon (a line
without a colon, including the empty line at end of stream, is a
ValueError), lower-cases the name and strips the value. -/
def readHeadersF : Nat → List Char → PyDict → Except Err (PyDict × List Char)
  | 0, _, _ => .error .valueError
  | fuel + 1, stream, hs =>
    let p := readLine stream
    if p.1 = NEWLINE then .ok (hs, p.2)
    else
      match splitSub p.1 [':'] with
      | none => .error .valueError
      | some hv => readHeadersF fuel p.2 (dictInsert hs (pyLowerStr hv.1) (pyStrip hv.2))

/-- The header loop with adequate fuel. -/
def readHeaders (stream : List Char) (hs : PyDict) : Except Err (PyDict × List Char) :=
  readHeadersF (stream.length + 1) stream hs

/-- Result of one exchange: the outcome (headers and decoded body, or
the propagated exception) together with whether s.close() was reached. -/
structure ExchangeResult where
  outcome : Except Err (PyDict × List Char)
  closed : Bool
  deriving Repr

/-- The response half of request(), browser.py lines 105-126, over the
raw response stream: read the status line, split it into three fields
(ValueError if fewer), assert the status is 200, run the header loop,
then read the remaining stream as the body, gzip-decompressing it when
the content-encoding header (case-insensitive value) says gzip.
s.close() (line 124) is reached only after all of that succeeds; every
raised exception propagates past it, so closed is false on those paths. -/
def exchange (decompress : List Char → Option (List Char)) (stream : List Char) :
    ExchangeResult :=
  let sl := readLine stream
  match splitMax sl.1 ' ' 2 with
  | [_, status, explanation] =>
    if status = "200".data then
      match readHeaders sl.2 [] with
      | .error e => { outcome := .error e, closed := false }
      | .ok hr =>
        if pyLowerStr ((dictGet hr.1 HEADER_CONTENT_ENCODING).getD []) = ENCODING_GZIP then
          match decompress hr.2 with
          | none => { outcome := .error .badGzip, closed := false }
          | some b => { outcome := .ok (hr.1, b), closed := true }
        else { outcome := .ok (hr.1, hr.2), closed := true }
    else { outcome := .error (.httpError status explanation), closed := false }
  | _ => { outcome := .error .valueError, closed := false }

/-- Whether an exchange outcome is a normal return. -/
def exOk : Except Err (PyDict × List Char) → Bool
  | .ok _ => true
  | .error _ => false

/-- The loop body of lex(), browser.py lines 129-140, carrying the
in_angle flag. -/
def lexAux : Bool → List Char → List Char
  | _, [] => []
  | _, '<' :: cs => lexAux true cs
  | _, '>' :: cs => lexAux false cs
  | b, c :: cs => if b then lexAux b cs else c :: lexAux b cs

/-- lex() of browser.py, lines 129-140: strip markup between angle
brackets. -/
def lex (body : List Char) : List Char := lexAux false body

/-- The in_angle flag left by a run of lex() over the given characters. -/
def stAfter : Bool → List Char → Bool
  | b, [] => b
  | _, '<' :: cs => stAfter true cs
  | _, '>' :: cs => stAfter false cs
  | b, _ :: cs => stAfter b cs

/-- A wire header section: the given lines, each terminated by CRLF,
then the blank line, then the rest of the stream. -/
def assembleHeaders : List (List Char) → List Char → List Char
  | [], rest => NEWLINE ++ rest
  | l :: ls, rest => l ++ NEWLINE ++ assembleHeaders ls rest

/-- The header mapping described by the spec: split each line on the
first colon, lower-case the name, trim the value, insert overwriting
any prior entry (a line without a colon contributes nothing; the
exchange instead fails on such a line). -/
def processLines : List (List Char) → PyDict → PyDict
  | [], d => d
  | l :: ls, d =>
    match splitSub l [':'] with
    | none => processLines ls d
    | some hv => processLines ls (dictInsert d (pyLowerStr hv.1) (pyStrip hv.2))

/-- The lower-cased name of a header line (split at the first colon). -/
def headerName (l : List Char) : Option (List Char) :=
  (splitSub l [':']).map (fun hv => pyLowerStr hv.1)

/-- The trimmed value of a header line (split at the first colon). -/
def headerValue (l : List Char) : Option (List Char) :=
  (splitSub l [':']).map (fun hv => pyStrip hv.2)

/-- The value of the last header line whose lower-cased name is the
given key: the last-occurrence-wins reading of the header section. -/
def lastWins : List (List Char) → List Char → Option (List Char)
  | [], _ => none
  | l :: ls, k =>
    match lastWins ls k with
    | some v => some v
    | none => if headerName l = some k then headerValue l else none

/-- NEWLINE as an explicit character list. -/
theorem NEWLINE_eq : NEWLINE = ['\r', '\n'] := rfl

/-- beginsWith accepts the pattern itself in front of anything. -/
theorem beginsWith_self_append (p b : List Char) : beginsWith p (p ++ b) = true := by
  induction p with
  | nil => rfl
  | cons c cs ih => simp [beginsWith, ih]

/-- splitSub cuts at the separator when no earlier position can start it. -/
theorem splitSub_first : ∀ (a : List Char) (sep b : List Char) (c : Char) (t : List Char),
    sep = c :: t → c ∉ a → splitSub (a ++ sep ++ b) sep = some (a, b)
  | [], sep, b, c, t, hsep, _ => by
    subst hsep
    simp only [List.nil_append, List.cons_append, splitSub]
    rw [if_pos]
    · have : ((c :: t ++ b).drop (c :: t).length) = b := by
        have h0 := List.drop_left (c :: t) b
        simp only [List.cons_append] at h0
        exact h0
      simp [this]
    · have := beginsWith_self_append (c :: t) b
      simp at this
      simp [this]
  | x :: xs, sep, b, c, t, hsep, hc => by
    have hx : ¬ (c = x) := by
      intro h
      exact hc (by simp [h, List.mem_cons_self])
    have ih := splitSub_first xs sep b c t hsep (fun h => hc (List.mem_cons_of_mem x h))
    subst hsep
    simp only [List.cons_append, splitSub, beginsWith]
    rw [if_neg]
    · simp only [List.append_eq]
      rw [ih]
    · simp [hx]

/-- Every occurrence of a character yields a first-occurrence split. -/
theorem splitSub_of_mem : ∀ (l : List Char) (c : Char), c ∈ l →
    ∃ a b, l = a ++ c :: b ∧ c ∉ a ∧ splitSub l [c] = some (a, b)
  | [], c, h => absurd h (List.not_mem_nil c)
  | x :: xs, c, h => by
    by_cases hx : x = c
    · subst hx
      refine ⟨[], xs, rfl, List.not_mem_nil x, ?_⟩
      simp [splitSub, beginsWith]
    · have hmem : c ∈ xs := by
        rcases List.mem_cons.mp h with h1 | h1
        · exact absurd h1.symm hx
        · exact h1
      obtain ⟨a, b, he, hna, hs⟩ := splitSub_of_mem xs c hmem
      refine ⟨x :: a, b, by simp [he], ?_, ?_⟩
      · intro hcm
        rcases List.mem_cons.mp hcm with h1 | h1
        · exact hx h1.symm
        · exact hna h1
      · have hcx : ¬ (c = x) := fun h1 => hx h1.symm
        simp [splitSub, beginsWith, hs, hcx]

/-- readLine returns the stream up to and including the first linefeed. -/
theorem readLine_append : ∀ (x y : List Char), '\n' ∉ x →
    readLine (x ++ '\n' :: y) = (x ++ ['\n'], y)
  | [], y, _ => by simp [readLine]
  | c :: cs, y, hx => by
    have h1 : ¬ (c = '\n') := fun h => hx (by simp [h])
    have h2 := readLine_append cs y (fun h => hx (List.mem_cons_of_mem c h))
    simp [readLine, h1, h2]

/-- readLine on a CRLF-terminated line followed by more stream. -/
theorem readLine_crlf (x y : List Char) (hx : '\n' ∉ x) :
    readLine (x ++ NEWLINE ++ y) = (x ++ NEWLINE, y) := by
  have h1 : x ++ NEWLINE ++ y = (x ++ ['\r']) ++ '\n' :: y := by
    simp [NEWLINE_eq, List.append_assoc]
  have h2 : '\n' ∉ x ++ ['\r'] := by
    intro h
    rcases List.mem_append.mp h with h | h
    · exact hx h
    · simp at h
  rw [h1, readLine_append _ _ h2]
  simp [NEWLINE_eq, List.append_assoc]

/-- The two halves returned by readLine reassemble the stream. -/
theorem readLine_join : ∀ s : List Char, (readLine s).1 ++ (readLine s).2 = s
  | [] => rfl
  | c :: cs => by
    by_cases h : c = '\n'
    · simp [readLine, h]
    · simp [readLine, h, readLine_join cs]

/-- On a nonempty stream readLine returns a nonempty line. -/
theorem readLine_fst_ne (c : Char) (cs : List Char) : (readLine (c :: cs)).1 ≠ [] := by
  by_cases h : c = '\n' <;> simp [readLine, h]

/-- Stripping is unaffected by a trailing CRLF. -/
theorem pyStrip_append_crlf (b : List Char) : pyStrip (b ++ NEWLINE) = pyStrip b := by
  unfold pyStrip
  rw [NEWLINE_eq, List.dropWhile_append]
  by_cases h : (b.dropWhile pyIsSpace).isEmpty
  · have hb : b.dropWhile pyIsSpace = [] := by
      cases hd : b.dropWhile pyIsSpace
      · rfl
      · rw [hd] at h; simp at h
    rw [if_pos h, hb]
    simp [List.dropWhile, pyIsSpace]
  · rw [if_neg h]
    have : (b.dropWhile pyIsSpace ++ ['\r', '\n']).reverse
        = '\n' :: '\r' :: (b.dropWhile pyIsSpace).reverse := by simp
    rw [this]
    simp [List.dropWhile, pyIsSpace]

/-- Character-level round trip for valid small codepoints. -/
theorem char_toNat_ofNat_small : ∀ n, n < 123 → (Char.ofNat n).toNat = n := by decide

/-- Lower-casing one character is idempotent. -/
theorem pyLowerChar_idem (c : Char) : pyLowerChar (pyLowerChar c) = pyLowerChar c := by
  unfold pyLowerChar
  by_cases h : 65 ≤ c.toNat ∧ c.toNat ≤ 90
  · rw [if_pos h]
    have ht : (Char.ofNat (c.toNat + 32)).toNat = c.toNat + 32 :=
      char_toNat_ofNat_small _ (by omega)
    rw [if_neg]
    intro hcon
    rw [ht] at hcon
    omega
  · rw [if_neg h, if_neg h]

/-- Lower-casing a string is idempotent. -/
theorem pyLowerStr_idem (s : List Char) : pyLowerStr (pyLowerStr s) = pyLowerStr s := by
  unfold pyLowerStr
  rw [List.map_map]
  apply List.map_congr_left
  intro c _
  exact pyLowerChar_idem c

/-- Characters fixed by lower-casing stay outside a lower-cased string
unless their image is in it. -/
theorem mem_of_mem_pyLowerStr (c : Char) (s : List Char) (h : c ∈ s) :
    pyLowerChar c ∈ pyLowerStr s := List.mem_map_of_mem pyLowerChar h

/-- Lookup after insert: the inserted key hides earlier entries, other
keys are unaffected. -/
theorem dictGet_dictInsert (d : PyDict) (k v k' : List Char) :
    dictGet (dictInsert d k v) k' = if k' = k then some v else dictGet d k' := by
  induction d with
  | nil =>
    simp only [dictInsert, dictGet]
    split_ifs with h1 h2 <;> simp_all
  | cons kv d ih =>
    obtain ⟨k0, v0⟩ := kv
    simp only [dictInsert, dictGet]
    by_cases h0 : k0 = k
    · rw [if_pos h0]
      simp only [dictGet]
      by_cases h : k = k'
      · rw [if_pos h, if_pos h.symm]
      · rw [if_neg h, if_neg (fun hh : k' = k => h hh.symm)]
        rw [if_neg (fun hh : k0 = k' => h (h0 ▸ hh))]
    · rw [if_neg h0]
      simp only [dictGet, ih]
      by_cases h1 : k0 = k'
      · have h2 : ¬ k' = k := fun hh => h0 (h1.symm ▸ hh.symm ▸ rfl)
        rw [if_pos h1, if_neg h2, if_pos h1]
      · rw [if_neg h1]
        by_cases h2 : k' = k
        · rw [if_pos h2, if_pos h2]
        · rw [if_neg h2, if_neg h2, if_neg h1]

/-- Every entry after an insert is the new pair or an old entry. -/
theorem mem_dictInsert (d : PyDict) (k v : List Char) (kv : List Char × List Char)
    (h : kv ∈ dictInsert d k v) : kv = (k, v) ∨ kv ∈ d := by
  induction d with
  | nil =>
    simp only [dictInsert] at h
    exact Or.inl (List.mem_singleton.mp h)
  | cons kv0 d ih =>
    obtain ⟨k0, v0⟩ := kv0
    simp only [dictInsert] at h
    by_cases h0 : k0 = k
    · rw [if_pos h0] at h
      rcases List.mem_cons.mp h with h1 | h1
      · exact Or.inl h1
      · exact Or.inr (List.mem_cons_of_mem _ h1)
    · rw [if_neg h0] at h
      rcases List.mem_cons.mp h with h1 | h1
      · exact Or.inr (h1 ▸ List.mem_cons_self _ _)
      · rcases ih h1 with h2 | h2
        · exact Or.inl h2
        · exact Or.inr (List.mem_cons_of_mem _ h2)

/-- The fuel argument of the header loop is irrelevant once it exceeds
the stream length. -/
theorem readHeadersF_fuel : ∀ (f g : Nat) (s : List Char) (hs : PyDict),
    s.length < f → s.length < g → readHeadersF f s hs = readHeadersF g s hs := by
  intro f
  induction f with
  | zero => intro g s hs hf hg; exact absurd hf (Nat.not_lt_zero _)
  | succ n ih =>
    intro g s hs hf hg
    cases g with
    | zero => exact absurd hg (Nat.not_lt_zero _)
    | succ m =>
      rw [readHeadersF, readHeadersF]
      by_cases hl : (readLine s).1 = NEWLINE
      · rw [if_pos hl, if_pos hl]
      · rw [if_neg hl, if_neg hl]
        cases hsp : splitSub (readLine s).1 [':'] with
        | none => rfl
        | some hv =>
          have hline : (readLine s).1 ≠ [] := by
            intro he
            rw [he] at hsp
            simp [splitSub] at hsp
          have hrest : (readLine s).2.length < s.length := by
            have hj := congrArg List.length (readLine_join s)
            simp only [List.length_append] at hj
            have h1 : 1 ≤ (readLine s).1.length := by
              cases hq : (readLine s).1
              · exact absurd hq hline
              · simp
            omega
          exact ih m _ _ (by omega) (by omega)

/-- One iteration of the header loop over a well-formed header line. -/
theorem readHeaders_step (a b s : List Char) (d : PyDict)
    (hna : ':' ∉ a) (hnl : '\n' ∉ a ++ ':' :: b) :
    readHeaders ((a ++ ':' :: b) ++ NEWLINE ++ s) d
      = readHeaders s (dictInsert d (pyLowerStr a) (pyStrip b)) := by
  unfold readHeaders
  have hlen : ((a ++ ':' :: b) ++ NEWLINE ++ s).length
      = (a ++ ':' :: b).length + 2 + s.length + 1 - 1 := by
    simp [NEWLINE_eq]
    omega
  rw [hlen]
  have hstep : (a ++ ':' :: b).length + 2 + s.length + 1 - 1
      = ((a ++ ':' :: b).length + 2 + s.length - 1) + 1 := by omega
  rw [hstep, readHeadersF]
  rw [readLine_crlf _ _ hnl]
  dsimp only
  have hne : ¬ ((a ++ ':' :: b) ++ NEWLINE = NEWLINE) := by
    intro h
    have h2 := congrArg List.length h
    simp [NEWLINE_eq] at h2
    omega
  rw [if_neg hne]
  have hsplit : splitSub ((a ++ ':' :: b) ++ NEWLINE) [':'] = some (a, b ++ NEWLINE) := by
    have h1 : (a ++ ':' :: b) ++ NEWLINE = a ++ [':'] ++ (b ++ NEWLINE) := by
      rw [List.append_cons a ':' b]
      simp [List.append_assoc]
    rw [h1]
    exact splitSub_first a [':'] (b ++ NEWLINE) ':' [] rfl hna
  rw [hsplit]
  dsimp only
  rw [pyStrip_append_crlf]
  exact readHeadersF_fuel _ _ _ _ (by omega) (by omega)

/-- The header loop stops at the blank line and hands back the rest. -/
theorem readHeaders_nil (s : List Char) (d : PyDict) :
    readHeaders (NEWLINE ++ s) d = .ok (d, s) := by
  unfold readHeaders
  have hlen : (NEWLINE ++ s).length = (s.length + 1) + 1 := by simp [NEWLINE_eq]
  rw [hlen, readHeadersF]
  have h0 : readLine (NEWLINE ++ s) = (NEWLINE, s) := by
    have h1 := readLine_crlf [] s (by simp)
    simpa using h1
  rw [h0]
  simp

/-- The stripper splits over append, threading the in_angle flag. -/
theorem lexAux_append (b : Bool) (x y : List Char) :
    lexAux b (x ++ y) = lexAux b x ++ lexAux (stAfter b x) y := by
  induction x generalizing b with
  | nil => simp [lexAux, stAfter]
  | cons c cs ih =>
    by_cases h1 : c = '<'
    · subst h1; simp [lexAux, stAfter, ih]
    · by_cases h2 : c = '>'
      · subst h2; simp [lexAux, stAfter, ih]
      · simp only [List.cons_append, lexAux, stAfter, h1, h2, if_neg]
        by_cases hb : b
        · simp [hb, ih]
        · simp [hb, ih]

/-- Inside a tag, input without a closing bracket produces no output. -/
theorem lexAux_true_of_no_gt : ∀ t : List Char, '>' ∉ t → lexAux true t = []
  | [], _ => rfl
  | c :: cs, h => by
    have hrec := lexAux_true_of_no_gt cs (fun hm => h (List.mem_cons_of_mem c hm))
    have h2 : c ≠ '>' := fun he => h (he ▸ List.mem_cons_self c cs)
    by_cases h1 : c = '<'
    · subst h1; simp [lexAux, hrec]
    · simp [lexAux, h1, h2, hrec]

/-- The stripper never emits an angle bracket, from any starting flag. -/
theorem lexAux_count (b : Bool) (s : List Char) :
    (lexAux b s).count '<' = 0 ∧ (lexAux b s).count '>' = 0 := by
  induction s generalizing b with
  | nil => simp [lexAux]
  | cons c cs ih =>
    by_cases h1 : c = '<'
    · subst h1; simpa [lexAux] using ih true
    · by_cases h2 : c = '>'
      · subst h2; simpa [lexAux] using ih false
      · by_cases hb : b
        · simpa [lexAux, h1, h2, hb] using ih b
        · have ihb := ih b
          have h3 : ('<' == c) = false := beq_eq_false_iff_ne.mpr (fun he => h1 he.symm)
          have h4 : ('>' == c) = false := beq_eq_false_iff_ne.mpr (fun he => h2 he.symm)
          simp [lexAux, h1, h2, hb, List.count_cons, h3, h4, ihb.1, ihb.2, (ih false).1, (ih false).2]

/-- A digit is not whitespace. -/
theorem isDigit_not_space (c : Char) (h : c.isDigit = true) : pyIsSpace c = false := by
  have h1 : c ≠ ' ' := fun he => absurd (he ▸ h) (by decide)
  have h2 : c ≠ '\t' := fun he => absurd (he ▸ h) (by decide)
  have h3 : c ≠ '\n' := fun he => absurd (he ▸ h) (by decide)
  have h4 : c ≠ '\r' := fun he => absurd (he ▸ h) (by decide)
  have h5 : c ≠ Char.ofNat 11 := fun he => absurd (he ▸ h) (by decide)
  have h6 : c ≠ Char.ofNat 12 := fun he => absurd (he ▸ h) (by decide)
  simp [pyIsSpace, h1, h2, h3, h4, h5, h6]

/-- dropWhile does nothing on a list with no matching characters. -/
theorem dropWhile_no_space (p : List Char) (h : ∀ c ∈ p, pyIsSpace c = false) :
    p.dropWhile pyIsSpace = p := by
  cases p with
  | nil => rfl
  | cons c cs => simp [List.dropWhile_cons, h c (List.mem_cons_self c cs)]

/-- Stripping does nothing on an all-digit string. -/
theorem pyStrip_no_space (p : List Char) (h : ∀ c ∈ p, pyIsSpace c = false) :
    pyStrip p = p := by
  unfold pyStrip
  rw [dropWhile_no_space p h,
    dropWhile_no_space _ (fun c hc => h c (List.mem_reverse.mp hc)),
    List.reverse_reverse]

/-- An all-digit tail passes the digitpart tail check. -/
theorem pyDigitRest_all_digits : ∀ p : List Char, (∀ c ∈ p, c.isDigit = true) →
    pyDigitRest p = true
  | [], _ => rfl
  | c :: cs, h => by
    have hc := h c (List.mem_cons_self c cs)
    have hcs := pyDigitRest_all_digits cs (fun x hx => h x (List.mem_cons_of_mem c hx))
    have hne : c ≠ '_' := fun he => absurd (he ▸ hc) (by decide)
    cases cs with
    | nil => simp [pyDigitRest, hne, hc]
    | cons d ds => simp [pyDigitRest, hne, hc, hcs]

/-- Python int() succeeds on a nonempty all-digit string. -/
theorem pyIntParse_digits (p : List Char) (hne : p ≠ []) (h : ∀ c ∈ p, c.isDigit = true) :
    pyIntParse p = some (Int.ofNat (digitsVal p)) := by
  have hs : pyStrip p = p :=
    pyStrip_no_space p (fun c hc => isDigit_not_space c (h c hc))
  unfold pyIntParse
  simp only [hs]
  cases p with
  | nil => exact absurd rfl hne
  | cons c cs =>
    have hc := h c (List.mem_cons_self c cs)
    have hplus : c ≠ '+' := fun he => absurd (he ▸ hc) (by decide)
    have hminus : c ≠ '-' := fun he => absurd (he ▸ hc) (by decide)
    have hdp : pyDigitPart (c :: cs) = true := by
      simp [pyDigitPart, hc,
        pyDigitRest_all_digits cs (fun x hx => h x (List.mem_cons_of_mem c hx))]
    simp [hplus, hminus, hdp]

/-- Splitting a scheme://rest string at the scheme separator. -/
theorem parse_scheme_split (sc rest : List Char) (hsc : ':' ∉ sc) :
    splitSub (sc ++ "://".data ++ rest) ("://".data) = some (sc, rest) :=
  splitSub_first sc ("://".data) rest ':' ("//".data) rfl hsc

/-- Splitting at a single character that occurs nowhere earlier. -/
theorem splitSub_single (a b : List Char) (c : Char) (hc : c ∉ a) :
    splitSub (a ++ c :: b) [c] = some (a, b) := by
  rw [List.append_cons]
  exact splitSub_first a [c] b c [] rfl hc

/-- parse stores the input verbatim in the raw field. -/
theorem parse_raw (s : List Char) (u : URLRec) (h : parse s = some u) : u.raw = s := by
  unfold parse at h
  repeat' first
    | (split at h)
    | (dsimp only at h)
  all_goals first
    | (rw [← Option.some.inj h])
    | (exact absurd h (by simp))

/-- Every Locator returned by parse has a path beginning with a slash. -/
theorem parse_path_slash (s : List Char) (u : URLRec) (h : parse s = some u) :
    ∃ r, u.path = '/' :: r := by
  unfold parse at h
  repeat' first
    | (split at h)
    | (dsimp only at h)
  all_goals first
    | (rw [← Option.some.inj h]; exact ⟨_, rfl⟩)
    | (exact absurd h (by simp))

/-- The header loop over assembled well-formed lines is the fold the
spec describes. -/
theorem readHeaders_processLines : ∀ (lines : List (List Char)) (rest : List Char) (d : PyDict),
    (∀ l ∈ lines, '\n' ∉ l ∧ ':' ∈ l) →
    readHeaders (assembleHeaders lines rest) d = .ok (processLines lines d, rest)
  | [], rest, d, _ => by
    rw [assembleHeaders, readHeaders_nil, processLines]
  | l :: ls, rest, d, hwf => by
    obtain ⟨hnl, hcol⟩ := hwf l (List.mem_cons_self l ls)
    obtain ⟨a, b, heq, hna, hsp⟩ := splitSub_of_mem l ':' hcol
    rw [assembleHeaders, heq]
    rw [readHeaders_step a b (assembleHeaders ls rest) d hna (heq ▸ hnl)]
    rw [readHeaders_processLines ls rest _ (fun x hx => hwf x (List.mem_cons_of_mem l hx))]
    rw [heq] at hsp
    simp only [processLines, hsp]

/-- Looking a key up in the fold is last-occurrence-wins over the lines,
falling back to the accumulator. -/
theorem dictGet_processLines : ∀ (lines : List (List Char)) (d : PyDict) (k : List Char),
    dictGet (processLines lines d) k
      = match lastWins lines k with
        | some v => some v
        | none => dictGet d k
  | [], d, k => by simp [processLines, lastWins]
  | l :: ls, d, k => by
    cases hsp : splitSub l [':'] with
    | none =>
      have h1 : headerName l = none := by simp [headerName, hsp]
      simp only [processLines, hsp, lastWins, h1]
      rw [dictGet_processLines ls d k]
      cases hlw : lastWins ls k <;> simp
    | some hv =>
      have h1 : headerName l = some (pyLowerStr hv.1) := by simp [headerName, hsp]
      have h2 : headerValue l = some (pyStrip hv.2) := by simp [headerValue, hsp]
      simp only [processLines, hsp, lastWins, h1, h2]
      rw [dictGet_processLines ls _ k]
      cases hlw : lastWins ls k with
      | some v => simp
      | none =>
        simp only []
        rw [dictGet_dictInsert]
        by_cases hk : k = pyLowerStr hv.1
        · rw [if_pos hk]
          have h3 : (some (pyLowerStr hv.1) = some k) := by rw [hk]
          simp [h3]
        · rw [if_neg hk]
          have h3 : ¬ (some (pyLowerStr hv.1) = some k) := by
            intro hcon
            exact hk (Option.some.inj hcon).symm
          simp [h3]

/-- Every key produced by the fold is fixed by lower-casing. -/
theorem processLines_keys : ∀ (lines : List (List Char)) (d : PyDict),
    (∀ kv ∈ d, pyLowerStr kv.1 = kv.1) →
    ∀ kv ∈ processLines lines d, pyLowerStr kv.1 = kv.1
  | [], d, hd => by
    intro kv hkv
    rw [processLines] at hkv
    exact hd kv hkv
  | l :: ls, d, hd => by
    intro kv hkv
    cases hsp : splitSub l [':'] with
    | none =>
      rw [processLines, hsp] at hkv
      exact processLines_keys ls d hd kv hkv
    | some hv =>
      rw [processLines, hsp] at hkv
      refine processLines_keys ls _ ?_ kv hkv
      intro kv2 hkv2
      rcases mem_dictInsert d _ _ kv2 hkv2 with h1 | h1
      · rw [h1]
        exact pyLowerStr_idem hv.1
      · exact hd kv2 h1

/-- C9: the markup stripper is the single-pass one-flag scan: it maps
a<b>c</b>d to acd and <html>hi to hi, and drops everything from an
unmatched opening bracket to the end of the input. -/
theorem claim9_strip_examples_and_drop :
    lex ("a<b>c</b>d".data) = "acd".data
    ∧ lex ("<html>hi".data) = "hi".data
    ∧ ∀ s t : List Char, '>' ∉ t → lex (s ++ '<' :: t) = lex s := by
  refine ⟨by decide, by decide, ?_⟩
  intro s t ht
  unfold lex
  rw [lexAux_append]
  have h1 : lexAux (stAfter false s) ('<' :: t) = lexAux true t := by
    simp [lexAux]
  rw [h1, lexAux_true_of_no_gt t ht, List.append_nil]

/-- Witness for C9 at a concrete unterminated tail. -/
theorem claim9_witness : lex ("ab".data ++ '<' :: "cd".data) = lex ("ab".data) :=
  claim9_strip_examples_and_drop.2.2 ("ab".data) ("cd".data) (by decide)

/-- C10: the stripper's output never contains an angle bracket: both
brackets are consumed as flag transitions on every input. -/
theorem claim10_no_brackets (s : List Char) :
    (lex s).count '<' = 0 ∧ (lex s).count '>' = 0 :=
  lexAux_count false s

/-- C6: parsing a bare host yields path /, and every accepted input
yields a nonempty path beginning with a slash. -/
theorem claim6_bare_host_and_path :
    parse ("http://example.com".data)
      = some ⟨"http://example.com".data, "example.com".data, "/".data, "http".data, 80⟩
    ∧ ∀ s u, parse s = some u → ∃ r, u.path = '/' :: r :=
  ⟨by decide, parse_path_slash⟩

/-- Witness for C6 at a concrete parsed Locator. -/
theorem claim6_witness :
    ∃ r, (⟨"http://example.com/a/b".data, "example.com".data, "/a/b".data,
      "http".data, 80⟩ : URLRec).path = '/' :: r :=
  claim6_bare_host_and_path.2 ("http://example.com/a/b".data) _ (by decide)

/-- C7: parse accepts every well-formed scheme://host[:port]/path input,
and is idempotent: re-parsing the raw field of any parsed Locator gives
the same Locator back. -/
theorem claim7_total_idempotent :
    (∀ s u, parse s = some u → parse u.raw = some u)
    ∧ ∀ sc h pt op, (sc = "http".data ∨ sc = "https".data) → ':' ∉ h → '/' ∉ h →
        (∀ p, op = some p → p ≠ [] ∧ ∀ c ∈ p, c.isDigit = true) →
        (parse (mkWF sc h pt op)).isSome = true := by
  constructor
  · intro s u hp
    rw [parse_raw s u hp]
    exact hp
  · intro sc h pt op hsc hh hsh hop
    have hscol : ':' ∉ sc := by
      rcases hsc with h1 | h1 <;> (subst h1; decide)
    have hslash : '/' ∉ h ++ portPart op := by
      intro hm
      rcases List.mem_append.mp hm with h1 | h1
      · exact hsh h1
      · rcases op with _ | p
        · simp [portPart] at h1
        · rw [portPart] at h1
          rcases List.mem_cons.mp h1 with h2 | h2
          · exact absurd h2 (by decide)
          · exact absurd ((hop p rfl).2 '/' h2) (by decide)
    unfold mkWF parse
    rw [parse_scheme_split sc _ hscol]
    dsimp only
    rw [if_pos hsc]
    have hmem : '/' ∈ h ++ portPart op ++ ('/' :: pt) :=
      List.mem_append.mpr (Or.inr (List.mem_cons_self _ _))
    rw [if_pos hmem]
    rw [splitSub_single _ pt '/' hslash]
    dsimp only
    rcases op with _ | p
    · have hc : ¬ (':' ∈ h ++ portPart none) := by
        intro hm
        rcases List.mem_append.mp hm with h1 | h1
        · exact hh h1
        · simp [portPart] at h1
      rw [if_neg hc]
      simp
    · have hc : ':' ∈ h ++ portPart (some p) :=
        List.mem_append.mpr (Or.inr (by rw [portPart]; exact List.mem_cons_self _ _))
      rw [if_pos hc]
      have hps : splitSub (h ++ portPart (some p)) [':'] = some (h, p) := by
        rw [portPart]
        exact splitSub_single h p ':' hh
      rw [hps]
      dsimp only
      obtain ⟨hpne, hpd⟩ := hop p rfl
      rw [pyIntParse_digits p hpne hpd]
      simp

/-- Witness for C7: idempotence at a parsed Locator and totality at a
well-formed input with an explicit port. -/
theorem claim7_witness :
    parse ((⟨"http://example.com/a".data, "example.com".data, "/a".data,
        "http".data, 80⟩ : URLRec).raw)
      = some ⟨"http://example.com/a".data, "example.com".data, "/a".data, "http".data, 80⟩
    ∧ (parse (mkWF ("http".data) ("example.com".data) ("a".data)
        (some ("8080".data)))).isSome = true :=
  ⟨claim7_total_idempotent.1 ("http://example.com/a".data) _ (by decide),
   claim7_total_idempotent.2 ("http".data) ("example.com".data) ("a".data)
     (some ("8080".data)) (Or.inl rfl) (by decide) (by decide)
     (by intro p hp; injection hp with hp; subst hp; exact ⟨by decide, by decide⟩)⟩

/-- C8 as stated is false: Python int() accepts a signed port, so
parse("http://h:-1/") succeeds with port -1 even though "-1" is not a
valid non-negative integer. -/
theorem claim8_counterexample :
    parse ("http://h:-1/".data)
      = some ⟨"http://h:-1/".data, "h".data, "/".data, "http".data, -1⟩ := by decide

/-- C8 amended: for an input whose host-part carries an explicit port
segment, parse fails exactly when Python int() rejects the segment, and
when int() accepts it (including signed values) the resulting port is
that value, overriding the scheme default. -/
theorem claim8_amended (h ps pt : List Char)
    (h1 : ':' ∉ h) (h2 : '/' ∉ h) (h3 : '/' ∉ ps) (_h4 : ∀ c ∈ ps, c.toNat < 128) :
    parse ("http".data ++ "://".data ++ (h ++ ':' :: ps ++ '/' :: pt))
      = (pyIntParse ps).map
          (fun p => ⟨"http".data ++ "://".data ++ (h ++ ':' :: ps ++ '/' :: pt),
            h, '/' :: pt, "http".data, p⟩) := by
  unfold parse
  rw [parse_scheme_split _ _ (by decide)]
  dsimp only
  rw [if_pos (Or.inl rfl)]
  have hslash : '/' ∉ h ++ ':' :: ps := by
    intro hm
    rcases List.mem_append.mp hm with hm1 | hm1
    · exact h2 hm1
    · rcases List.mem_cons.mp hm1 with hm2 | hm2
      · exact absurd hm2 (by decide)
      · exact h3 hm2
  have hmem : '/' ∈ h ++ ':' :: ps ++ '/' :: pt :=
    List.mem_append.mpr (Or.inr (List.mem_cons_self _ _))
  rw [if_pos hmem]
  rw [splitSub_single (h ++ ':' :: ps) pt '/' hslash]
  dsimp only
  have hcol : ':' ∈ h ++ ':' :: ps :=
    List.mem_append.mpr (Or.inr (List.mem_cons_self _ _))
  rw [if_pos hcol]
  rw [splitSub_single h ps ':' h1]
  dsimp only
  cases hpi : pyIntParse ps with
  | none => simp
  | some p => simp

/-- Witness for C8 amended at a concrete valid port. -/
theorem claim8_witness :
    parse ("http".data ++ "://".data ++ ("h".data ++ ':' :: "8080".data ++ '/' :: "x".data))
      = (pyIntParse ("8080".data)).map
          (fun p => ⟨"http".data ++ "://".data
              ++ ("h".data ++ ':' :: "8080".data ++ '/' :: "x".data),
            "h".data, '/' :: "x".data, "http".data, p⟩) :=
  claim8_amended ("h".data) ("8080".data) ("x".data)
    (by decide) (by decide) (by decide) (by decide)

/-- C1 as stated is false: on the non-200 exit path the exchange
propagates the assert before ever reaching s.close(), leaving the
stream open (closed = false). -/
theorem claim1_counterexample :
    (exchange (fun b => some b) ("HTTP/1.0 404 Not Found\r\n\r\n".data)).closed = false
    ∧ (exchange (fun b => some b) ("HTTP/1.0 404 Not Found\r\n\r\n".data)).outcome
        = .error (.httpError ("404".data) ("Not Found\r\n".data)) :=
  ⟨rfl, rfl⟩

/-- C1 amended: the stream is closed exactly when the exchange returns
normally; on every error exit (short status line, non-200 status,
malformed header line, gzip failure) s.close() is never executed. -/
theorem claim1_amended (dec : List Char → Option (List Char)) (s : List Char) :
    (exchange dec s).closed = exOk (exchange dec s).outcome := by
  unfold exchange
  dsimp only
  repeat' split
  all_goals rfl

/-- C2 as stated is false: the exact bytes carry the lower-case header
name accept-encoding, not the claimed literal Accept-Encoding. -/
theorem claim2_counterexample :
    requestString ("/".data) ("example.com".data)
      ≠ "GET / HTTP/1.0\r\nHost: example.com\r\nAccept-Encoding: gzip\r\n\r\n".data := by
  decide

/-- C2 amended: the single request emitted is byte-for-byte the request
line, the Host header, the lower-case accept-encoding header and the
blank line, all CRLF-terminated, with no body and nothing else. -/
theorem claim2_amended (path host : List Char) :
    requestString path host
      = "GET ".data ++ (path ++ (" HTTP/1.0\r\nHost: ".data
          ++ (host ++ "\r\naccept-encoding: gzip\r\n\r\n".data))) := by
  have key : ∀ z : List Char,
      " HTTP/1.0".data ++ (NEWLINE ++ ("Host: ".data ++ z))
        = " HTTP/1.0\r\nHost: ".data ++ z := by
    intro z
    rw [← List.append_assoc, ← List.append_assoc]
    congr 1
  have key2 : NEWLINE ++ ("accept-encoding".data ++ (": ".data
      ++ ("gzip".data ++ (NEWLINE ++ NEWLINE))))
        = "\r\naccept-encoding: gzip\r\n\r\n".data := by decide
  unfold requestString HEADER_ACCEPT_ENCODING ENCODING_GZIP
  simp only [List.append_assoc]
  rw [key2, key]

/-- C3: when the wire carries a 200 status, a content-encoding header
in any letter case with value gzip, and a body that the decompressor
maps back to t, the exchange returns exactly t as the decoded body. -/
theorem claim3_gzip_roundtrip (dec : List Char → Option (List Char)) (n t c : List Char)
    (hn : pyLowerStr n = "content-encoding".data)
    (hd : dec c = some t) :
    exchange dec
        ("HTTP/1.0 200 OK".data ++ NEWLINE
          ++ (n ++ ": gzip".data ++ NEWLINE) ++ NEWLINE ++ c)
      = { outcome := .ok ([("content-encoding".data, "gzip".data)], t), closed := true } := by
  have hcolon : ':' ∉ n := by
    intro hm
    have h5 := mem_of_mem_pyLowerStr ':' n hm
    rw [hn] at h5
    exact absurd h5 (by decide)
  have hnl : '\n' ∉ n := by
    intro hm
    have h5 := mem_of_mem_pyLowerStr '\n' n hm
    rw [hn] at h5
    exact absurd h5 (by decide)
  have hline : '\n' ∉ n ++ ':' :: " gzip".data := by
    intro hm
    rcases List.mem_append.mp hm with h5 | h5
    · exact hnl h5
    · exact absurd h5 (by decide)
  have hg : ": gzip".data = ':' :: " gzip".data := rfl
  have hstream :
      "HTTP/1.0 200 OK".data ++ NEWLINE ++ (n ++ ": gzip".data ++ NEWLINE) ++ NEWLINE ++ c
        = "HTTP/1.0 200 OK".data ++ NEWLINE
            ++ (((n ++ ':' :: " gzip".data) ++ NEWLINE) ++ (NEWLINE ++ c)) := by
    rw [hg]
    simp [List.append_assoc]
  rw [hstream]
  unfold exchange
  rw [readLine_crlf _ _ (by decide)]
  dsimp only
  rw [(by decide : splitMax ("HTTP/1.0 200 OK".data ++ NEWLINE) ' ' 2
      = ["HTTP/1.0".data, "200".data, "OK\r\n".data])]
  dsimp only
  rw [if_pos rfl]
  rw [readHeaders_step n (" gzip".data) (NEWLINE ++ c) [] hcolon hline]
  rw [readHeaders_nil]
  dsimp only
  rw [hn]
  rw [(by decide : pyStrip (" gzip".data) = "gzip".data)]
  have hcond : pyLowerStr ((dictGet
      (dictInsert [] ("content-encoding".data) ("gzip".data))
      HEADER_CONTENT_ENCODING).getD []) = ENCODING_GZIP := by decide
  rw [if_pos hcond]
  rw [hd]
  rfl

/-- Witness for C3: an upper-case header name and an identity
decompressor round-trip the body hello. -/
theorem claim3_witness :
    exchange some ("HTTP/1.0 200 OK".data ++ NEWLINE
        ++ ("Content-Encoding".data ++ ": gzip".data ++ NEWLINE) ++ NEWLINE ++ "hello".data)
      = { outcome := .ok ([("content-encoding".data, "gzip".data)], "hello".data),
          closed := true } :=
  claim3_gzip_roundtrip some ("Content-Encoding".data) ("hello".data) ("hello".data)
    (by decide) rfl

/-- C4: a response whose well-formed status line carries a non-200
status makes the exchange fail with an HTTPError carrying that code and
reason, and no byte past the status line influences the result. -/
theorem claim4_non200 (dec : List Char → Option (List Char)) (sl r v st ex : List Char)
    (h1 : '\n' ∉ sl) (h2 : splitMax (sl ++ ['\n']) ' ' 2 = [v, st, ex])
    (h3 : st ≠ "200".data) :
    exchange dec (sl ++ '\n' :: r)
      = { outcome := .error (.httpError st ex), closed := false } := by
  unfold exchange
  rw [readLine_append sl r h1]
  dsimp only
  rw [h2]
  dsimp only
  rw [if_neg h3]

/-- Witness for C4: a 404 status line followed by unread body bytes. -/
theorem claim4_witness :
    exchange some ("HTTP/1.0 404 Not Found\r".data ++ '\n' :: ("BODY".data))
      = { outcome := .error (.httpError ("404".data) ("Not Found\r\n".data)),
          closed := false } :=
  claim4_non200 some ("HTTP/1.0 404 Not Found\r".data) ("BODY".data)
    ("HTTP/1.0".data) ("404".data) ("Not Found\r\n".data)
    (by decide) (by decide) (by decide)

/-- C5: over well-formed ASCII header lines the loop returns exactly
the mapping the spec describes (first-colon split, lower-cased name,
trimmed value, overwrite on duplicates), lookup is last-occurrence-wins,
and every key is fixed by lower-casing. -/
theorem claim5_header_mapping (lines : List (List Char)) (rest : List Char)
    (hwf : ∀ l ∈ lines, '\n' ∉ l ∧ ':' ∈ l ∧ ∀ c ∈ l, c.toNat < 128) :
    readHeaders (assembleHeaders lines rest) [] = .ok (processLines lines [], rest)
    ∧ (∀ k, dictGet (processLines lines []) k = lastWins lines k)
    ∧ ∀ kv ∈ processLines lines [], pyLowerStr kv.1 = kv.1 := by
  refine ⟨readHeaders_processLines lines rest []
      (fun l hl => ⟨(hwf l hl).1, (hwf l hl).2.1⟩), ?_, ?_⟩
  · intro k
    rw [dictGet_processLines]
    cases lastWins lines k <;> simp [dictGet]
  · exact processLines_keys lines [] (by simp)

/-- Witness for C5: duplicate content-encoding headers in mixed case,
with the last occurrence winning on lookup. -/
theorem claim5_witness :
    readHeaders (assembleHeaders [("Content-Encoding: gzip".data), ("X-A: 1".data),
        ("CONTENT-ENCODING: deflate".data)] ("BODY".data)) []
      = .ok (processLines [("Content-Encoding: gzip".data), ("X-A: 1".data),
          ("CONTENT-ENCODING: deflate".data)] [], "BODY".data)
    ∧ dictGet (processLines [("Content-Encoding: gzip".data), ("X-A: 1".data),
        ("CONTENT-ENCODING: deflate".data)] []) ("content-encoding".data)
      = lastWins [("Content-Encoding: gzip".data), ("X-A: 1".data),
        ("CONTENT-ENCODING: deflate".data)] ("content-encoding".data) :=
  ⟨(claim5_header_mapping [("Content-Encoding: gzip".data), ("X-A: 1".data),
      ("CONTENT-ENCODING: deflate".data)] ("BODY".data) (by decide)).1,
   (claim5_header_mapping [("Content-Encoding: gzip".data), ("X-A: 1".data),
      ("CONTENT-ENCODING: deflate".data)] ("BODY".data) (by decide)).2.1
     ("content-encoding".data)⟩
